import Mathlib

/-!
Verification development for the Xcode project-file duplicate-reference
cleanup tool (`cleanup_duplicate_files.py`).

The document is modelled as a `List Char` (the full file content, as the
Python code reads it).  Lines are obtained by splitting on `'\n'` exactly as
Python's `str.split('\n')` does.  Machine integers do not occur; all counts
are natural numbers.
-/

set_option maxRecDepth 8192

namespace Cleanup

/-! ### Character classes

`pySpace` models Python's regex class `\s` on the ASCII range (the inputs of
this tool are ASCII project files); `isHexUp` models the class `[A-F0-9]`
used for identifiers. -/

def pySpace (c : Char) : Bool :=
  c = ' ' || c = '\t' || c = '\n' || c = '\r' || c = '\x0b' || c = '\x0c'

def isHexUp (c : Char) : Bool :=
  ('A' ≤ c && c ≤ 'F') || ('0' ≤ c && c ≤ '9')

/-! ### Splitting into lines

`splitLines` is Python's `content.split('\n')`: it always returns at least
one (possibly empty) piece, and `"a\n"` splits as `["a", ""]`.
`joinLines` is `'\n'.join(...)`. -/

def splitLines : List Char → List (List Char)
  | [] => [[]]
  | c :: cs =>
    if c = '\n' then [] :: splitLines cs
    else (c :: (splitLines cs).headD []) :: (splitLines cs).tail

def joinLines : List (List Char) → List Char
  | [] => []
  | [l] => l
  | l :: ls => l ++ '\n' :: joinLines ls

/-- The `i`-th (0-based) line of a document. -/
def lineAt (content : List Char) (i : Nat) : List Char :=
  (splitLines content).getD i []

/-! ### Substring containment

`containsList hay needle` models Python's `needle in hay` on strings. -/

def containsList (hay needle : List Char) : Bool :=
  if needle.isPrefixOf hay then true
  else
    match hay with
    | [] => false
    | _ :: t => containsList t needle

/-! ### The reference scanner (`parse_file_references`)

The Python code scans the content with
`re.finditer(r'([A-F0-9]{24})\s*/\*\s*([^*]+\.(swift|m|h|storyboard|xib))\s*\*/', content)`.
A match therefore consists of a 24-character upper-case hex identifier, then
whitespace, then `/*`, then the comment body up to the next `*` (none of
`\s`, `[^*]`, `.` and the extension literals can cross a `*`), which must be
immediately followed by `*/`.  Inside the body the engine backtracks:
`\s*` is tried longest-first and then `[^*]+` longest-first, so the filename
group is determined by the largest dot position `d` with a recognized
extension followed only by whitespace; when that `d` coincides with the end
of the whitespace prefix the engine gives one whitespace character back to
`[^*]+`.  Line numbers count the newlines before the match start, plus 1,
exactly as `content[:line_start].count('\n') + 1` does. -/

structure Reference where
  uuid : List Char
  filename : List Char
  line : Nat
  fullMatch : List Char
deriving Repr, DecidableEq, Inhabited

/-- The extension alternation `(swift|m|h|storyboard|xib)`, in source order. -/
def extensions : List (List Char) :=
  ["swift".data, "m".data, "h".data, "storyboard".data, "xib".data]

/-- Try the extension alternation at the characters following a dot: the
extension must be a literal prefix and only whitespace may remain before the
closing `*/`.  Returns the extension length. -/
def tryExtAt (t : List Char) : Option Nat :=
  extensions.findSome? fun e =>
    if e.isPrefixOf t && (t.drop e.length).all pySpace then some e.length else none

/-- The largest position `d ≥ 1` in the comment body carrying the `\.`
of `[^*]+\.(ext)`, together with the matched extension's length.  The
greedy `[^*]+` makes the regex engine prefer larger `d`. -/
def bestDot (B : List Char) : Option (Nat × Nat) :=
  (List.range B.length).reverse.findSome? fun d =>
    if 1 ≤ d && B.getD d '*' = '.' then
      (tryExtAt (B.drop (d + 1))).map fun el => (d, el)
    else none

/-- Match `\s*([^*]+\.(swift|m|h|storyboard|xib))\s*` against the whole
comment body `B` (the characters strictly between `/*` and the next `*`),
returning the captured filename group. -/
def matchComment (B : List Char) : Option (List Char) :=
  match bestDot B with
  | none => none
  | some (d, el) =>
    let wmax := (B.takeWhile pySpace).length
    if wmax < d then some ((B.drop wmax).take (d + 1 + el - wmax))
    else some ((B.drop (wmax - 1)).take (d + 1 + el - (wmax - 1)))

/-- The result of attempting the regex at one position: the identifier, the
captured filename and the full matched text. -/
structure RawMatch where
  uuid : List Char
  filename : List Char
  matched : List Char
deriving Repr, DecidableEq

/-- Attempt the file-reference regex at the head of `s`. -/
def tryMatchAt (s : List Char) : Option RawMatch :=
  let u := s.take 24
  if u.length = 24 && u.all isHexUp then
    let r1 := s.drop 24
    let w1 := r1.takeWhile pySpace
    match r1.dropWhile pySpace with
    | '/' :: '*' :: r3 =>
      let B := r3.takeWhile fun c => c != '*'
      match r3.dropWhile (fun c => c != '*') with
      | '*' :: '/' :: _ =>
        match matchComment B with
        | some f => some ⟨u, f, u ++ w1 ++ '/' :: '*' :: (B ++ ['*', '/'])⟩
        | none => none
      | _ => none
    | _ => none
  else none

/-- `re.finditer` over the remaining text: try a match at every position,
left to right; on success record the reference (with 1-based line number
`nl + 1`, where `nl` counts the newlines already passed) and resume after
the matched text.  The first argument is a structural-recursion fuel; every
step consumes at least one character, so any fuel of at least the text's
length gives the unbounded scan. -/
def scanRefsAux : Nat → Nat → List Char → List Reference
  | 0, _, _ => []
  | _, _, [] => []
  | fuel + 1, nl, c :: cs =>
    match tryMatchAt (c :: cs) with
    | some m =>
      ⟨m.uuid, m.filename, nl + 1, m.matched⟩ ::
        scanRefsAux fuel (nl + m.matched.count '\n') (cs.drop (m.matched.length - 1))
    | none => scanRefsAux fuel (nl + (if c = '\n' then 1 else 0)) cs

def scanRefs (nl : Nat) (s : List Char) : List Reference :=
  scanRefsAux s.length nl s

/-- `parse_file_references`: all scanned references of the document. -/
def parse_file_references (content : List Char) : List Reference :=
  scanRefs 0 content

/-! ### The section indexer (`find_file_sections`)

The Python code walks the lines keeping a `current_section`; for each line it
checks, for each of the five section names in dictionary order, whether the
line contains `"/* Begin <name> section */"` (entering that section) or else
`"/* End <name> section */"` (leaving).  Every line processed while a
section is current — including the begin-marker line itself — is credited to
that section. -/

def sectionNames : List String :=
  ["PBXBuildFile", "PBXFileReference", "PBXGroup",
   "PBXSourcesBuildPhase", "PBXResourcesBuildPhase"]

def beginMarker (s : String) : List Char := ("/* Begin " ++ s ++ " section */").data

def endMarker (s : String) : List Char := ("/* End " ++ s ++ " section */").data

/-- One line's effect on `current_section`: the inner `for section in
sections:` loop with its `if begin in line / elif end in line`. -/
def sectionStep (cur : Option String) (line : List Char) : Option String :=
  sectionNames.foldl
    (fun c s =>
      if containsList line (beginMarker s) then some s
      else if containsList line (endMarker s) then none
      else c)
    cur

/-- The `current_section` in force after processing each successive line. -/
def sectionOwners (cur : Option String) : List (List Char) → List (Option String)
  | [] => []
  | l :: ls =>
    let c := sectionStep cur l
    c :: sectionOwners c ls

/-- `find_file_sections`: for each section name, the 0-based indices of the
lines credited to it. -/
def find_file_sections (lines : List (List Char)) : List (String × List Nat) :=
  sectionNames.map fun s =>
    (s, (sectionOwners none lines).enum.filterMap fun p =>
          if p.2 = some s then some p.1 else none)

/-! ### The duplicate analyzer (`analyze_duplicates`)

The Python code groups the references into a `defaultdict(list)` keyed by
filename (insertion-ordered: keys appear in order of first occurrence, each
group keeps scan order), then for every group with more than one member
sorts it stably by line number and splits it into `keep` (first) and
`remove` (rest). -/

/-- The distinct keys of a list, in order of first occurrence (the iteration
order of a Python dict built by successive insertions).  The first argument
is a structural-recursion fuel; every step consumes at least one element,
so any fuel of at least the list's length gives the full key list. -/
def firstKeysAux : Nat → List (List Char) → List (List Char)
  | 0, _ => []
  | _, [] => []
  | fuel + 1, k :: ks => k :: firstKeysAux fuel (ks.filter fun x => x != k)

def firstKeys (l : List (List Char)) : List (List Char) :=
  firstKeysAux l.length l

/-- `defaultdict(list)` grouping by filename: for each filename in order of
first occurrence, the references carrying it, in scan order. -/
def groupByFilename (refs : List Reference) : List (List Char × List Reference) :=
  (firstKeys (refs.map (·.filename))).map fun k =>
    (k, refs.filter fun r => r.filename == k)

/-- Stable insertion by ascending line number (Python's stable `sort` with
`key=lambda x: x['line']`). -/
def insertByLine (x : Reference) : List Reference → List Reference
  | [] => [x]
  | y :: ys => if x.line ≤ y.line then x :: y :: ys else y :: insertByLine x ys

/-- Stable sort by ascending line number. -/
def sortByLine : List Reference → List Reference
  | [] => []
  | x :: xs => insertByLine x (sortByLine xs)

structure DupGroup where
  keep : Reference
  remove : List Reference
deriving Repr, DecidableEq, Inhabited

/-- The body of the `analyze_duplicates` loop for one filename group: a
group of size > 1 is sorted by line and split into the kept first
occurrence and the rest; smaller groups are not duplicates. -/
def analyzeGroup (p : List Char × List Reference) : Option (List Char × DupGroup) :=
  match sortByLine p.2 with
  | r0 :: r1 :: rest => some (p.1, ⟨r0, r1 :: rest⟩)
  | _ => none

/-- `analyze_duplicates`: the groups of size > 1, each sorted by line and
split into the kept first occurrence and the rest. -/
def analyze_duplicates (refs : List Reference) : List (List Char × DupGroup) :=
  (groupByFilename refs).filterMap analyzeGroup

/-! ### The reference remover (`remove_duplicate_references`) -/

/-- The set of identifiers to remove: the union of all groups' `remove`
lists (a Python `set`; only membership is ever used). -/
def removeUuids (dups : List (List Char × DupGroup)) : List (List Char) :=
  (dups.map fun p => p.2.remove.map (·.uuid)).flatten

/-- Whether a line is scheduled for removal: it contains some identifier of
the removal set (`if uuid in line`). -/
def lineRemoved (uuids : List (List Char)) (line : List Char) : Bool :=
  uuids.any fun u => containsList line u

/-- `remove_duplicate_references`: split the content into lines, (compute
the — unused — section index exactly as the source does,) drop every line
containing an identifier from the removal set, and return the rejoined text
together with the number of removed lines. -/
def remove_duplicate_references (content : List Char)
    (duplicates : List (List Char × DupGroup)) : List Char × Nat :=
  let lines := splitLines content
  let _sections := find_file_sections lines
  let uuids := removeUuids duplicates
  let filtered := lines.filter fun l => !lineRemoved uuids l
  (joinLines filtered, lines.countP fun l => lineRemoved uuids l)

/-- `remove_duplicate_references` with the dead `find_file_sections`
computation deleted, for the refinement claim that the section index has no
effect on removal. -/
def remove_duplicate_references_noIndex (content : List Char)
    (duplicates : List (List Char × DupGroup)) : List Char × Nat :=
  let lines := splitLines content
  let uuids := removeUuids duplicates
  let filtered := lines.filter fun l => !lineRemoved uuids l
  (joinLines filtered, lines.countP fun l => lineRemoved uuids l)

/-! ### The structural validator (`validate_project_file`) -/

/-- The fixed list of required begin/end section markers. -/
def requiredSections : List (List Char) :=
  ["/* Begin PBXBuildFile section */".data,
   "/* End PBXBuildFile section */".data,
   "/* Begin PBXFileReference section */".data,
   "/* End PBXFileReference section */".data,
   "/* Begin PBXGroup section */".data,
   "/* End PBXGroup section */".data,
   "/* Begin PBXProject section */".data,
   "/* End PBXProject section */".data]

/-- `validate_project_file`'s verdict: every required marker occurs in the
content and the counts of open and close braces agree.  (The source also
returns a human-readable reason; only the pass/fail verdict is modelled.) -/
def validate_project_file (content : List Char) : Bool :=
  (requiredSections.all fun s => containsList content s) &&
    (content.count '\x7b' == content.count '\x7d')

/-- The core pipeline: scan, analyze, remove. -/
def runPipeline (content : List Char) : List Char × Nat :=
  remove_duplicate_references content (analyze_duplicates (parse_file_references content))

/-! ## Derived notions used by the claims -/

/-- The scanned references of a document. -/
def docRefs (content : List Char) : List Reference :=
  parse_file_references content

/-- The duplicate report of a document. -/
def docDups (content : List Char) : List (List Char × DupGroup) :=
  analyze_duplicates (docRefs content)

/-- The identifiers scheduled for removal for a document. -/
def docRemoveSet (content : List Char) : List (List Char) :=
  removeUuids (docDups content)

/-- Whether a scanned reference's own line is kept by the remover. -/
def refSurvives (content : List Char) (r : Reference) : Bool :=
  !lineRemoved (docRemoveSet content) (lineAt content (r.line - 1))

/-- The scanned references carrying one logical name, in scan order. -/
def nameGroup (content f : List Char) : List Reference :=
  (docRefs content).filter fun r => r.filename == f

/-- The reference with the smallest line number among a logical name's
references (the designated `keep`). -/
def keepOf (content f : List Char) : Reference :=
  (sortByLine (nameGroup content f)).headD default

/-! ## Concrete documents for witnesses and counterexamples -/

def uuidA : List Char := List.replicate 24 'A'
def uuidB : List Char := List.replicate 24 'B'
def uuidC : List Char := List.replicate 24 'C'
def uuidD : List Char := List.replicate 24 'D'
def uuidE : List Char := List.replicate 24 'E'
def uuidF : List Char := List.replicate 24 'F'

/-- Two references to `F.swift` on consecutive lines: a minimal document
with one duplicate group. -/
def dupPairDoc : List Char :=
  uuidA ++ " /* F.swift */\n".data ++ uuidB ++ " /* F.swift */".data

/-- The two references the scanner extracts from `dupPairDoc`. -/
def refAw : Reference := ⟨uuidA, "F.swift".data, 1, uuidA ++ " /* F.swift */".data⟩

def refBw : Reference := ⟨uuidB, "F.swift".data, 2, uuidB ++ " /* F.swift */".data⟩

/-- Two references to the same logical name on one line: the keep's line
carries a removed identifier, so the declaration is lost entirely. -/
def sameLineDoc : List Char :=
  uuidA ++ " /* F.swift */ ".data ++ uuidB ++ " /* F.swift */".data

/-- Two references to `G.swift` on one line (line-number tie). -/
def tieDoc : List Char :=
  uuidC ++ " /* G.swift */ ".data ++ uuidD ++ " /* G.swift */".data

/-- The same identifier declared three times for the same name: the remove
list then repeats one identifier. -/
def tripleDoc : List Char :=
  uuidE ++ " /* H.swift */\n".data ++ uuidE ++ " /* H.swift */\n".data ++
    uuidE ++ " /* H.swift */".data

/-- A document on which removal creates a new cross-line match, so a second
pipeline pass finds a fresh duplicate. -/
def secondPassDoc : List Char :=
  joinLines
    [uuidA ++ " /* A.swift */".data,
     uuidB ++ " /* A.swift */".data,
     uuidC,
     uuidB ++ ";".data,
     "/* B.swift */".data,
     uuidD ++ " /* B.swift */".data]

/-- Two references with distinct logical names: no duplicates at all. -/
def distinctDoc : List Char :=
  uuidA ++ " /* A.swift */\n".data ++ uuidB ++ " /* B.swift */".data

/-- A minimal document containing all eight required section markers. -/
def markersDoc : List Char := joinLines requiredSections

/-- A declaration line of the worked scenario. -/
def fooLine (u : List Char) : List Char := u ++ " /* Foo.swift */".data

/-- A non-declaration mention of an identifier (does not match the scanner's
pattern because of the trailing words in the comment). -/
def mentionLine (u : List Char) : List Char :=
  u ++ " /* Foo.swift in Sources */;".data

/-- The worked-scenario document: declarations of `Foo.swift` at lines 10,
45 and 120 and one further mention of each identifier at lines 200, 210 and
220; all other lines are empty. -/
def scenarioLines : List (List Char) :=
  List.replicate 9 [] ++ [fooLine uuidA] ++ List.replicate 34 [] ++
    [fooLine uuidB] ++ List.replicate 74 [] ++ [fooLine uuidC] ++
    List.replicate 79 [] ++ [mentionLine uuidA] ++ List.replicate 9 [] ++
    [mentionLine uuidB] ++ List.replicate 9 [] ++ [mentionLine uuidC]

def scenarioDoc : List Char := joinLines scenarioLines

/-- The worked scenario's expected output: the input without lines 45, 120,
210 and 220. -/
def scenarioExpected : List (List Char) :=
  List.replicate 9 [] ++ [fooLine uuidA] ++ List.replicate 187 [] ++
    [mentionLine uuidA] ++ List.replicate 18 []

/-- A project document whose `PBXGroup` section lacks its end marker; it
still contains one duplicate pair inside that section. -/
def openSectionLines : List (List Char) :=
  ["/* Begin PBXBuildFile section */".data,
   "/* End PBXBuildFile section */".data,
   "/* Begin PBXFileReference section */".data,
   "/* End PBXFileReference section */".data,
   "/* Begin PBXGroup section */".data,
   uuidF ++ " /* Dup.swift */".data,
   uuidE ++ " /* Dup.swift */".data,
   "/* Begin PBXProject section */".data,
   "/* End PBXProject section */".data]

def openSectionDoc : List Char := joinLines openSectionLines

/-- `openSectionDoc` after the pipeline: the second `Dup.swift` line is
gone. -/
def openSectionOutLines : List (List Char) :=
  ["/* Begin PBXBuildFile section */".data,
   "/* End PBXBuildFile section */".data,
   "/* Begin PBXFileReference section */".data,
   "/* End PBXFileReference section */".data,
   "/* Begin PBXGroup section */".data,
   uuidF ++ " /* Dup.swift */".data,
   "/* Begin PBXProject section */".data,
   "/* End PBXProject section */".data]


/-! ## Lemmas about line splitting and joining -/

theorem splitLines_ne_nil (c : List Char) : splitLines c ≠ [] := by
  cases c with
  | nil => simp [splitLines]
  | cons a cs =>
    simp only [splitLines]
    split <;> simp

theorem splitLines_eq_cons (c : List Char) :
    splitLines c = (splitLines c).headD [] :: (splitLines c).tail := by
  have := splitLines_ne_nil c
  cases h : splitLines c with
  | nil => exact absurd h this
  | cons x xs => simp

theorem splitLines_cons_of_ne (a : Char) (cs : List Char) (h : a ≠ '\n') :
    splitLines (a :: cs) =
      (a :: (splitLines cs).headD []) :: (splitLines cs).tail := by
  simp [splitLines, h]

theorem splitLines_cons_newline (cs : List Char) :
    splitLines ('\n' :: cs) = [] :: splitLines cs := by
  simp [splitLines]

theorem joinLines_cons_cons (l x : List Char) (xs : List (List Char)) :
    joinLines (l :: x :: xs) = l ++ '\n' :: joinLines (x :: xs) := rfl

theorem length_splitLines (c : List Char) :
    (splitLines c).length = c.count '\n' + 1 := by
  induction c with
  | nil => simp [splitLines]
  | cons a cs ih =>
    by_cases h : a = '\n'
    · subst h
      rw [splitLines_cons_newline]
      simp [List.count_cons, ih]
    · rw [splitLines_cons_of_ne a cs h]
      have htail : (splitLines cs).tail.length = (splitLines cs).length - 1 :=
        List.length_tail _
      have hpos : 1 ≤ (splitLines cs).length := by rw [ih]; omega
      simp only [List.length_cons, htail, ih, List.count_cons]
      have : (a == '\n') = false := by simp [h]
      rw [this]
      simp only [if_false, Bool.false_eq_true]
      omega

theorem headD_splitLines (c : List Char) :
    (splitLines c).headD [] = c.takeWhile (fun x => x != '\n') := by
  induction c with
  | nil => simp [splitLines]
  | cons a cs ih =>
    by_cases h : a = '\n'
    · subst h
      rw [splitLines_cons_newline]
      simp [List.takeWhile_cons]
    · rw [splitLines_cons_of_ne a cs h]
      have hb : (a != '\n') = true := by simp [h]
      simp only [List.headD_cons, List.takeWhile_cons, hb, if_true, ih]

theorem joinLines_splitLines (c : List Char) :
    joinLines (splitLines c) = c := by
  induction c with
  | nil => simp [splitLines, joinLines]
  | cons a cs ih =>
    by_cases h : a = '\n'
    · subst h
      rw [splitLines_cons_newline, splitLines_eq_cons cs, joinLines_cons_cons,
        ← splitLines_eq_cons cs, ih]
      simp
    · rw [splitLines_cons_of_ne a cs h]
      cases htl : (splitLines cs).tail with
      | nil =>
        have h3 : splitLines cs = [(splitLines cs).headD []] := by
          conv_lhs => rw [splitLines_eq_cons cs]
          rw [htl]
        rw [h3] at ih
        have h4 : joinLines [(splitLines cs).headD []] = (splitLines cs).headD [] := rfl
        rw [h4] at ih
        show joinLines [a :: (splitLines cs).headD []] = a :: cs
        show a :: (splitLines cs).headD [] = a :: cs
        rw [ih]
      | cons y ys =>
        have h3 : splitLines cs = (splitLines cs).headD [] :: y :: ys := by
          conv_lhs => rw [splitLines_eq_cons cs]
          rw [htl]
        rw [h3, joinLines_cons_cons] at ih
        rw [joinLines_cons_cons, List.cons_append, ih]

theorem not_newline_mem_splitLines (c : List Char) :
    ∀ l ∈ splitLines c, '\n' ∉ l := by
  induction c with
  | nil => simp [splitLines]
  | cons a cs ih =>
    by_cases h : a = '\n'
    · subst h
      simp only [splitLines, if_pos rfl]
      intro l hl
      rcases List.mem_cons.1 hl with rfl | hl
      · simp
      · exact ih l hl
    · rw [splitLines_cons_of_ne a cs h]
      intro l hl
      rcases List.mem_cons.1 hl with rfl | hl
      · intro hmem
        rcases List.mem_cons.1 hmem with rfl | hmem
        · exact h rfl
        · exact ih _ (by rw [splitLines_eq_cons cs]; exact List.mem_cons_self _ _) hmem
      · exact ih l (by rw [splitLines_eq_cons cs]; exact List.mem_cons_of_mem _ hl)

theorem splitLines_of_no_newline (l : List Char) (h : '\n' ∉ l) :
    splitLines l = [l] := by
  induction l with
  | nil => simp [splitLines]
  | cons a cs ih =>
    have ha : a ≠ '\n' := fun e => h (e ▸ List.mem_cons_self a cs)
    have hcs : '\n' ∉ cs := fun e => h (List.mem_cons_of_mem a e)
    rw [splitLines_cons_of_ne a cs ha, ih hcs]
    simp

theorem splitLines_append_newline (l r : List Char) (h : '\n' ∉ l) :
    splitLines (l ++ '\n' :: r) = l :: splitLines r := by
  induction l with
  | nil => simp [splitLines]
  | cons a cs ih =>
    have ha : a ≠ '\n' := fun e => h (e ▸ List.mem_cons_self a cs)
    have hcs : '\n' ∉ cs := fun e => h (List.mem_cons_of_mem a e)
    rw [List.cons_append, splitLines_cons_of_ne a _ ha, ih hcs]
    simp

theorem splitLines_joinLines (ls : List (List Char)) (hne : ls ≠ [])
    (h : ∀ l ∈ ls, '\n' ∉ l) : splitLines (joinLines ls) = ls := by
  induction ls with
  | nil => exact absurd rfl hne
  | cons l ls ih =>
    cases ls with
    | nil =>
      simp only [joinLines]
      exact splitLines_of_no_newline l (h l (List.mem_cons_self _ _))
    | cons l' ls' =>
      have hstep : joinLines (l :: l' :: ls') = l ++ '\n' :: joinLines (l' :: ls') := rfl
      rw [hstep, splitLines_append_newline l _ (h l (List.mem_cons_self _ _)),
        ih (by simp) (fun x hx => h x (List.mem_cons_of_mem _ hx))]

theorem getLastD_of_ne_nil (l : List (List Char)) (h : l ≠ []) (d₁ d₂ : List Char) :
    l.getLastD d₁ = l.getLastD d₂ := by
  cases l with
  | nil => exact absurd rfl h
  | cons x xs => rw [List.getLastD_cons, List.getLastD_cons]

/-- The line of `p ++ s` on which position `|p|` falls: the tail of `p`'s
last line followed by the head of `s`'s first line. -/
theorem getD_splitLines_append (p s : List Char) :
    (splitLines (p ++ s)).getD (p.count '\n') [] =
      (splitLines p).getLastD [] ++ (splitLines s).headD [] := by
  induction p with
  | nil =>
    rw [List.nil_append]
    rw [splitLines_eq_cons s]
    rfl
  | cons a p ih =>
    by_cases h : a = '\n'
    · subst h
      rw [List.cons_append, splitLines_cons_newline, splitLines_cons_newline]
      have hcnt : List.count '\n' ('\n' :: p) = List.count '\n' p + 1 := by
        simp [List.count_cons]
      rw [hcnt, List.getD_cons_succ, ih, List.getLastD_cons]
    · rw [List.cons_append, splitLines_cons_of_ne a _ h, splitLines_cons_of_ne a p h]
      have hcnt : List.count '\n' (a :: p) = List.count '\n' p := by
        simp [List.count_cons, h]
      rw [hcnt]
      rcases Nat.eq_zero_or_pos (List.count '\n' p) with h0 | hpos
      · rw [h0, List.getD_cons_zero]
        have hterm : (splitLines p).tail = [] := by
          have h1 : (splitLines p).tail.length = 0 := by
            rw [List.length_tail, length_splitLines, h0]
          exact List.length_eq_zero.1 h1
        rw [hterm]
        have h3 : (splitLines (p ++ s)).headD [] =
            (splitLines p).headD [] ++ (splitLines s).headD [] := by
          have h4 := ih
          rw [h0, splitLines_eq_cons (p ++ s), List.getD_cons_zero] at h4
          rw [splitLines_eq_cons p, hterm] at h4
          rw [List.getLastD_cons, List.getLastD_nil] at h4
          exact h4
        rw [h3]
        simp [List.getLastD_cons, List.getLastD_nil]
      · obtain ⟨k, hk⟩ : ∃ k, List.count '\n' p = k + 1 :=
          ⟨List.count '\n' p - 1, by omega⟩
        rw [hk, List.getD_cons_succ]
        have hlen : 2 ≤ (splitLines p).length := by rw [length_splitLines, hk]; omega
        have htp : (splitLines p).tail ≠ [] := by
          intro hnil
          have h1 : (splitLines p).tail.length = 0 := by rw [hnil]; rfl
          rw [List.length_tail] at h1
          omega
        have hrhs : ((a :: (splitLines p).headD []) :: (splitLines p).tail).getLastD [] =
            (splitLines p).getLastD [] := by
          rw [List.getLastD_cons]
          rw [getLastD_of_ne_nil _ htp (a :: (splitLines p).headD []) []]
          conv_rhs => rw [splitLines_eq_cons p]
          rw [List.getLastD_cons]
          exact getLastD_of_ne_nil _ htp [] _
        rw [hrhs]
        have hl : ((splitLines (p ++ s)).tail).getD k [] =
            (splitLines (p ++ s)).getD (k + 1) [] := by
          conv_rhs => rw [splitLines_eq_cons (p ++ s)]
          rw [List.getD_cons_succ]
        rw [hl, ← hk, ih]

/-- If the first `n` characters of `s` all satisfy `q`, then `s.take n` is a
prefix of `s.takeWhile q`. -/
theorem take_isPrefixOf_takeWhile (q : Char → Bool) (s : List Char) (n : Nat)
    (h : (s.take n).all q = true) : ∃ t, s.takeWhile q = s.take n ++ t := by
  induction s generalizing n with
  | nil => exact ⟨[], by simp⟩
  | cons a s ih =>
    cases n with
    | zero => exact ⟨(a :: s).takeWhile q, by simp⟩
    | succ n =>
      simp only [List.take_succ_cons, List.all_cons, Bool.and_eq_true] at h
      obtain ⟨t, ht⟩ := ih n h.2
      exact ⟨t, by simp [List.takeWhile_cons, h.1, ht]⟩

/-! ## Lemmas about substring containment -/

theorem isPrefixOf_iff_exists (n h : List Char) :
    n.isPrefixOf h = true ↔ ∃ t, h = n ++ t := by
  induction n generalizing h with
  | nil => simp [List.isPrefixOf]
  | cons a n ih =>
    cases h with
    | nil => simp [List.isPrefixOf]
    | cons b h =>
      simp only [List.isPrefixOf, Bool.and_eq_true, beq_iff_eq, ih]
      constructor
      · rintro ⟨rfl, t, rfl⟩
        exact ⟨t, rfl⟩
      · rintro ⟨t, ht⟩
        rw [List.cons_append] at ht
        injection ht with h1 h2
        exact ⟨h1.symm, t, h2⟩

theorem containsList_iff (h n : List Char) :
    containsList h n = true ↔ ∃ s t, h = s ++ n ++ t := by
  induction h with
  | nil =>
    rw [containsList]
    constructor
    · intro hp
      split at hp
      · next hpre =>
        obtain ⟨t, ht⟩ := (isPrefixOf_iff_exists n []).1 hpre
        exact ⟨[], t, by simpa using ht⟩
      · simp at hp
    · rintro ⟨s, t, hst⟩
      have : s = [] ∧ n = [] := by
        have := congrArg List.length hst
        simp at this
        constructor <;> [exact List.length_eq_zero.1 (by omega); exact List.length_eq_zero.1 (by omega)]
      rw [if_pos]
      rw [this.2]
      simp [List.isPrefixOf]
  | cons a hs ih =>
    rw [containsList]
    split
    · next hpre =>
      obtain ⟨t, ht⟩ := (isPrefixOf_iff_exists n (a :: hs)).1 hpre
      simp only [true_iff]
      exact ⟨[], t, by simpa using ht⟩
    · next hpre =>
      rw [ih]
      constructor
      · rintro ⟨s, t, rfl⟩
        exact ⟨a :: s, t, rfl⟩
      · rintro ⟨s, t, hst⟩
        cases s with
        | nil =>
          exfalso
          apply hpre
          rw [isPrefixOf_iff_exists]
          exact ⟨t, by simpa using hst⟩
        | cons b s =>
          rw [List.cons_append, List.cons_append] at hst
          injection hst with h1 h2
          exact ⟨s, t, h2⟩

theorem containsList_of_eq_append (h n s t : List Char) (he : h = s ++ n ++ t) :
    containsList h n = true :=
  (containsList_iff h n).2 ⟨s, t, he⟩

/-- Containment is monotone: a substring of a line is a substring of any
text the line is embedded in. -/
theorem containsList_mono (l c n : List Char) (hl : ∃ s t, c = s ++ l ++ t)
    (hn : containsList l n = true) : containsList c n = true := by
  obtain ⟨s, t, rfl⟩ := hl
  obtain ⟨s', t', rfl⟩ := (containsList_iff l n).1 hn
  exact containsList_of_eq_append _ _ (s ++ s') (t' ++ t) (by simp)

/-- Every line of a document is contained in the document. -/
theorem mem_splitLines_embed (c l : List Char) (h : l ∈ splitLines c) :
    ∃ s t, c = s ++ l ++ t := by
  induction c with
  | nil =>
    simp [splitLines] at h
    exact ⟨[], [], by simp [h]⟩
  | cons a cs ih =>
    by_cases ha : a = '\n'
    · subst ha
      rw [splitLines_cons_newline] at h
      rcases List.mem_cons.1 h with rfl | h
      · exact ⟨[], '\n' :: cs, by simp⟩
      · obtain ⟨s, t, rfl⟩ := ih h
        exact ⟨'\n' :: s, t, by simp⟩
    · rw [splitLines_cons_of_ne a cs ha] at h
      rcases List.mem_cons.1 h with rfl | h
      · have hpre := headD_splitLines cs
        obtain ⟨t, ht⟩ : ∃ t, cs = cs.takeWhile (fun x => x != '\n') ++ t :=
          ⟨cs.dropWhile (fun x => x != '\n'), (List.takeWhile_append_dropWhile _ _).symm⟩
        refine ⟨[], t, ?_⟩
        simp only [List.nil_append, List.cons_append]
        rw [hpre]
        exact congrArg (a :: ·) ht
      · have hmem : l ∈ splitLines cs := by
          rw [splitLines_eq_cons cs]
          exact List.mem_cons_of_mem _ h
        obtain ⟨s, t, rfl⟩ := ih hmem
        exact ⟨a :: s, t, by simp⟩

/-- A newline-free substring of a document is a substring of one of its
lines. -/
theorem containsList_splitLines (c n : List Char) (hne : n ≠ [])
    (hnl : '\n' ∉ n) (h : containsList c n = true) :
    ∃ l ∈ splitLines c, containsList l n = true := by
  induction c with
  | nil =>
    obtain ⟨s, t, hst⟩ := (containsList_iff [] n).1 h
    have := congrArg List.length hst
    simp at this
    exact absurd (List.length_eq_zero.1 (by omega)) hne
  | cons a cs ih =>
    rw [containsList] at h
    split at h
    · next hpre =>
      obtain ⟨t, ht⟩ := (isPrefixOf_iff_exists n (a :: cs)).1 hpre
      -- n is a newline-free prefix of a :: cs
      by_cases ha : a = '\n'
      · -- then n would start with '\n'
        cases n with
        | nil => exact absurd rfl hne
        | cons b n' =>
          rw [List.cons_append] at ht
          injection ht with h1 _
          exact absurd (by rw [← h1, ha]; exact List.mem_cons_self _ _) hnl
      · cases n with
        | nil => exact absurd rfl hne
        | cons b n' =>
          rw [List.cons_append] at ht
          injection ht with h1 h2
          -- n' is a newline-free prefix of cs, hence a prefix of its first line
          have hall : (cs.take n'.length).all (fun x => x != '\n') = true := by
            rw [h2]
            simp only [List.take_left]
            rw [List.all_eq_true]
            intro x hx
            simp only [bne_iff_ne, ne_eq]
            intro hxe
            exact hnl (by rw [hxe] at hx; exact List.mem_cons_of_mem _ hx)
          obtain ⟨t', ht'⟩ := take_isPrefixOf_takeWhile (fun x => x != '\n') cs n'.length hall
          have hx : cs.take n'.length = n' := by rw [h2]; simp [List.take_left]
          refine ⟨a :: (splitLines cs).headD [], ?_, ?_⟩
          · rw [splitLines_cons_of_ne a cs ha]
            exact List.mem_cons_self _ _
          · rw [headD_splitLines cs, ht', hx, ← h1]
            exact containsList_of_eq_append _ _ [] t' (by simp)
    · -- n occurs in cs
      obtain ⟨l, hl, hcl⟩ := ih h
      by_cases ha : a = '\n'
      · subst ha
        exact ⟨l, by rw [splitLines_cons_newline]; exact List.mem_cons_of_mem _ hl, hcl⟩
      · rw [splitLines_eq_cons cs] at hl
        rcases List.mem_cons.1 hl with rfl | hl
        · refine ⟨a :: (splitLines cs).headD [], ?_, ?_⟩
          · rw [splitLines_cons_of_ne a cs ha]
            exact List.mem_cons_self _ _
          · exact containsList_mono _ _ _ ⟨[a], [], by simp⟩ hcl
        · refine ⟨l, ?_, hcl⟩
          rw [splitLines_cons_of_ne a cs ha]
          exact List.mem_cons_of_mem _ hl

/-! ## Lemmas about the scanner -/

theorem tryMatchAt_spec (s : List Char) (m : RawMatch)
    (h : tryMatchAt s = some m) :
    m.uuid = s.take 24 ∧ m.uuid.length = 24 ∧ m.uuid.all isHexUp = true ∧
      ∃ t, s = m.matched ++ t ∧ 24 ≤ m.matched.length := by
  simp only [tryMatchAt] at h
  split at h
  · next hcond =>
    rw [Bool.and_eq_true] at hcond
    obtain ⟨hlen, hhex⟩ := hcond
    split at h
    · next r3 hdw =>
      split at h
      · next rest hdw2 =>
        split at h
        · next f hmc =>
          injection h with h
          subst h
          refine ⟨rfl, by simpa using hlen, hhex, ?_⟩
          refine ⟨rest, ?_, ?_⟩
          · conv_lhs => rw [← List.take_append_drop 24 s]
            conv_lhs =>
              rw [show s.drop 24 =
                (s.drop 24).takeWhile pySpace ++ (s.drop 24).dropWhile pySpace from
                (List.takeWhile_append_dropWhile _ _).symm]
            rw [hdw]
            conv_lhs =>
              rw [show r3 = (r3.takeWhile fun c => c != '*') ++
                  (r3.dropWhile fun c => c != '*') from
                (List.takeWhile_append_dropWhile _ _).symm]
            rw [hdw2]
            simp
          · simp only [List.length_append]
            have : (s.take 24).length = 24 := by simpa using hlen
            omega
        · exact absurd h (by simp)
      · exact absurd h (by simp)
    · exact absurd h (by simp)
  · exact absurd h (by simp)

theorem scanRefs_spec_aux (fuel : Nat) :
    ∀ (s p : List Char), s.length ≤ fuel →
    ∀ r ∈ scanRefsAux fuel (List.count '\n' p) s,
      r.uuid.length = 24 ∧ r.uuid.all isHexUp = true ∧
      List.count '\n' p + 1 ≤ r.line ∧ r.line ≤ List.count '\n' (p ++ s) + 1 ∧
      containsList ((splitLines (p ++ s)).getD (r.line - 1) []) r.uuid = true := by
  induction fuel with
  | zero => intro s p hn r hr; simp [scanRefsAux] at hr
  | succ n ih =>
  intro s p hn
  match s with
  | [] => intro r hr; simp [scanRefsAux] at hr
  | c :: cs =>
    rw [scanRefsAux]
    cases hm : tryMatchAt (c :: cs) with
    | some m =>
      obtain ⟨huuid, hul, hhex, t, hsplit, hmlen⟩ := tryMatchAt_spec _ _ hm
      intro r hr
      rcases List.mem_cons.1 hr with rfl | hr
      · -- the reference emitted at this position
        refine ⟨by simpa using hul, by simpa using hhex, le_refl _, ?_, ?_⟩
        · show List.count '\n' p + 1 ≤ List.count '\n' (p ++ c :: cs) + 1
          rw [List.count_append]
          omega
        simp only
        have hline : List.count '\n' p + 1 - 1 = List.count '\n' p := by omega
        rw [hline, getD_splitLines_append p (c :: cs)]
        -- the uuid is a prefix of the first line of `c :: cs`
        have hnl : ((c :: cs).take 24).all (fun x => x != '\n') = true := by
          rw [List.all_eq_true]
          intro x hx
          have hhx : isHexUp x = true := by
            rw [huuid, List.all_eq_true] at hhex
            exact hhex x hx
          simp only [bne_iff_ne, ne_eq]
          intro hxe
          rw [hxe] at hhx
          exact absurd hhx (by decide)
        obtain ⟨t', ht'⟩ := take_isPrefixOf_takeWhile (fun x => x != '\n') (c :: cs) 24 hnl
        rw [headD_splitLines, ht', ← huuid]
        exact containsList_of_eq_append _ _ ((splitLines p).getLastD []) t' (by simp)
      · -- references found after the match
        have hdrop : cs.drop (m.matched.length - 1) = t := by
          have h1 : (c :: cs).drop m.matched.length = t := by
            rw [hsplit, List.drop_left]
          have h2 : (c :: cs).drop m.matched.length = cs.drop (m.matched.length - 1) := by
            obtain ⟨k, hk⟩ : ∃ k, m.matched.length = k + 1 :=
              ⟨m.matched.length - 1, by omega⟩
            rw [hk, List.drop_succ_cons]
            simp
          rw [← h2, h1]
        rw [hdrop] at hr
        have hcount : List.count '\n' p + m.matched.count '\n' =
            List.count '\n' (p ++ m.matched) := by
          rw [List.count_append]
        rw [hcount] at hr
        have hlen2 : t.length ≤ n := by
          have hh := congrArg List.length hsplit
          simp only [List.length_cons, List.length_append] at hh
          simp only [List.length_cons] at hn
          omega
        have := ih t (p ++ m.matched) hlen2 r hr
        have happ : (p ++ m.matched) ++ t = p ++ (c :: cs) := by
          rw [List.append_assoc, ← hsplit]
        rw [happ] at this
        obtain ⟨a1, a2, a3, a4, a5⟩ := this
        refine ⟨a1, a2, ?_, a4, a5⟩
        have : List.count '\n' p ≤ List.count '\n' (p ++ m.matched) := by
          rw [List.count_append]; omega
        omega
    | none =>
      intro r hr
      have heq : List.count '\n' p + (if c = '\n' then 1 else 0) =
          List.count '\n' (p ++ [c]) := by
        rw [List.count_append]
        by_cases hc : c = '\n'
        · simp [hc, List.count_cons]
        · simp only [List.count_cons, List.count_nil]
          have : ('\n' == c) = false := by
            simp only [beq_eq_false_iff_ne, ne_eq]
            exact fun he => hc he.symm
          simp [this]
      rw [heq] at hr
      have hlen2 : cs.length ≤ n := by
        simp only [List.length_cons] at hn
        omega
      have := ih cs (p ++ [c]) hlen2 r hr
      have happ : (p ++ [c]) ++ cs = p ++ (c :: cs) := by simp
      rw [happ] at this
      obtain ⟨a1, a2, a3, a4, a5⟩ := this
      refine ⟨a1, a2, ?_, a4, a5⟩
      have : List.count '\n' p ≤ List.count '\n' (p ++ [c]) := by
        rw [List.count_append]; omega
      omega

/-- Specification of the scanner needed by the later claims: every parsed
reference has a 24-character hex identifier, a line number between 1 and the
line count of the document, and its identifier occurs on its own line. -/
theorem parse_refs_spec (content : List Char) :
    ∀ r ∈ parse_file_references content,
      r.uuid.length = 24 ∧ r.uuid.all isHexUp = true ∧
      1 ≤ r.line ∧ r.line ≤ List.count '\n' content + 1 ∧
      containsList (lineAt content (r.line - 1)) r.uuid = true := by
  intro r hr
  have h0 : List.count '\n' ([] : List Char) = 0 := rfl
  have := scanRefs_spec_aux content.length content [] (le_refl _) r (by rw [h0]; exact hr)
  simpa [lineAt] using this

/-! ## Lemmas about grouping and sorting -/

theorem firstKeysAux_fuel_irrel (fuel₁ : Nat) :
    ∀ (fuel₂ : Nat) (l : List (List Char)), l.length ≤ fuel₁ → l.length ≤ fuel₂ →
      firstKeysAux fuel₁ l = firstKeysAux fuel₂ l := by
  induction fuel₁ with
  | zero =>
    intro f2 l h1 _
    have hl : l = [] := List.length_eq_zero.1 (by omega)
    subst hl
    cases f2 <;> rfl
  | succ n ih =>
    intro f2 l h1 h2
    cases l with
    | nil => cases f2 <;> rfl
    | cons k ks =>
      cases f2 with
      | zero => simp at h2
      | succ m =>
        rw [firstKeysAux, firstKeysAux]
        congr 1
        have hf := List.length_filter_le (fun x => x != k) ks
        simp only [List.length_cons] at h1 h2
        exact ih m _ (by omega) (by omega)

theorem firstKeys_cons (k : List Char) (ks : List (List Char)) :
    firstKeys (k :: ks) = k :: firstKeys (ks.filter fun x => x != k) := by
  rw [firstKeys, firstKeys]
  show firstKeysAux (ks.length + 1) (k :: ks) = _
  rw [firstKeysAux]
  congr 1
  exact firstKeysAux_fuel_irrel ks.length _ _
    (List.length_filter_le _ _) (le_refl _)

theorem firstKeys_nil : firstKeys [] = [] := rfl

theorem mem_firstKeys_aux (fuel : Nat) :
    ∀ (l : List (List Char)) (k : List Char), l.length ≤ fuel →
      (k ∈ firstKeys l ↔ k ∈ l) := by
  induction fuel with
  | zero =>
    intro l k h
    have hl : l = [] := List.length_eq_zero.1 (by omega)
    subst hl
    simp [firstKeys_nil]
  | succ n ih =>
    intro l k h
    cases l with
    | nil => simp [firstKeys_nil]
    | cons k' ks =>
      rw [firstKeys_cons]
      have hlen : (ks.filter fun x => x != k').length ≤ n := by
        have := List.length_filter_le (fun x => x != k') ks
        simp only [List.length_cons] at h
        omega
      simp only [List.mem_cons, ih _ k hlen, List.mem_filter, bne_iff_ne, ne_eq]
      by_cases hk : k = k'
      · simp [hk]
      · simp [hk]

theorem mem_firstKeys (l : List (List Char)) (k : List Char) :
    k ∈ firstKeys l ↔ k ∈ l :=
  mem_firstKeys_aux l.length l k (le_refl _)

theorem nodup_firstKeys_aux (fuel : Nat) :
    ∀ (l : List (List Char)), l.length ≤ fuel → (firstKeys l).Nodup := by
  induction fuel with
  | zero =>
    intro l h
    have hl : l = [] := List.length_eq_zero.1 (by omega)
    subst hl
    simp [firstKeys_nil]
  | succ n ih =>
    intro l h
    cases l with
    | nil => simp [firstKeys_nil]
    | cons k' ks =>
      rw [firstKeys_cons]
      have hlen : (ks.filter fun x => x != k').length ≤ n := by
        have := List.length_filter_le (fun x => x != k') ks
        simp only [List.length_cons] at h
        omega
      refine List.Nodup.cons ?_ (ih _ hlen)
      intro hmem
      rw [mem_firstKeys] at hmem
      rw [List.mem_filter] at hmem
      simp at hmem

theorem nodup_firstKeys (l : List (List Char)) : (firstKeys l).Nodup :=
  nodup_firstKeys_aux l.length l (le_refl _)

theorem insertByLine_perm (x : Reference) (l : List Reference) :
    (insertByLine x l).Perm (x :: l) := by
  induction l with
  | nil => simp [insertByLine]
  | cons y ys ih =>
    rw [insertByLine]
    split
    · exact List.Perm.refl _
    · exact (List.Perm.cons y ih).trans (List.Perm.swap x y ys)

theorem sortByLine_perm (l : List Reference) : (sortByLine l).Perm l := by
  induction l with
  | nil => simp [sortByLine]
  | cons x xs ih =>
    rw [sortByLine]
    exact (insertByLine_perm x (sortByLine xs)).trans (List.Perm.cons x ih)

theorem insertByLine_sorted (x : Reference) (l : List Reference)
    (h : l.Pairwise fun a b => a.line ≤ b.line) :
    (insertByLine x l).Pairwise fun a b => a.line ≤ b.line := by
  induction l with
  | nil => simp [insertByLine]
  | cons y ys ih =>
    rw [insertByLine]
    rw [List.pairwise_cons] at h
    split
    · next hle =>
      rw [List.pairwise_cons]
      constructor
      · intro b hb
        rcases List.mem_cons.1 hb with rfl | hb
        · exact hle
        · exact le_trans hle (h.1 b hb)
      · exact List.pairwise_cons.2 h
    · next hgt =>
      rw [List.pairwise_cons]
      constructor
      · intro b hb
        have := (insertByLine_perm x ys).mem_iff.1 hb
        rcases List.mem_cons.1 this with rfl | hb'
        · omega
        · exact h.1 b hb'
      · exact ih h.2

theorem sortByLine_sorted (l : List Reference) :
    (sortByLine l).Pairwise fun a b => a.line ≤ b.line := by
  induction l with
  | nil => simp [sortByLine]
  | cons x xs ih => exact insertByLine_sorted x _ ih

/-! ## Lemmas about the analyzer -/

theorem groupByFilename_mem (refs : List Reference)
    (p : List Char × List Reference) (hp : p ∈ groupByFilename refs) :
    p.2 = refs.filter fun r => r.filename == p.1 := by
  rw [groupByFilename] at hp
  obtain ⟨k, _, rfl⟩ := List.mem_map.1 hp
  rfl

theorem analyze_mem (refs : List Reference) (q : List Char × DupGroup)
    (hq : q ∈ analyze_duplicates refs) :
    sortByLine (refs.filter fun r => r.filename == q.1) = q.2.keep :: q.2.remove := by
  rw [analyze_duplicates] at hq
  obtain ⟨p, hp, he⟩ := List.mem_filterMap.1 hq
  have hgrp := groupByFilename_mem refs p hp
  unfold analyzeGroup at he
  cases hs : sortByLine p.2 with
  | nil => rw [hs] at he; simp at he
  | cons r0 rest =>
    cases rest with
    | nil => rw [hs] at he; simp at he
    | cons r1 rest' =>
      rw [hs] at he
      simp only [Option.some.injEq] at he
      rw [← he]
      simp only
      rw [← hgrp, hs]

theorem analyze_keep_mem (refs : List Reference) (q : List Char × DupGroup)
    (hq : q ∈ analyze_duplicates refs) : q.2.keep ∈ refs := by
  have h := analyze_mem refs q hq
  have hmem : q.2.keep ∈ sortByLine (refs.filter fun r => r.filename == q.1) := by
    rw [h]; exact List.mem_cons_self _ _
  have := (sortByLine_perm _).mem_iff.1 hmem
  exact List.mem_of_mem_filter this

theorem analyze_remove_mem (refs : List Reference) (q : List Char × DupGroup)
    (hq : q ∈ analyze_duplicates refs) (r : Reference) (hr : r ∈ q.2.remove) :
    r ∈ refs ∧ (r.filename == q.1) = true := by
  have h := analyze_mem refs q hq
  have hmem : r ∈ sortByLine (refs.filter fun r => r.filename == q.1) := by
    rw [h]; exact List.mem_cons_of_mem _ hr
  have hf := (sortByLine_perm _).mem_iff.1 hmem
  have := List.mem_filter.1 hf
  exact ⟨this.1, this.2⟩

theorem analyze_keep_le (refs : List Reference) (q : List Char × DupGroup)
    (hq : q ∈ analyze_duplicates refs) (r : Reference) (hr : r ∈ q.2.remove) :
    q.2.keep.line ≤ r.line := by
  have h := analyze_mem refs q hq
  have hs := sortByLine_sorted (refs.filter fun r => r.filename == q.1)
  rw [h, List.pairwise_cons] at hs
  exact hs.1 r hr

/-- The identifiers of the removal set all belong to scanned references. -/
theorem removeUuids_mem (dups : List (List Char × DupGroup)) (u : List Char)
    (hu : u ∈ removeUuids dups) :
    ∃ q ∈ dups, ∃ r ∈ q.2.remove, r.uuid = u := by
  rw [removeUuids] at hu
  obtain ⟨l, hl, hul⟩ := List.mem_flatten.1 hu
  obtain ⟨q, hq, rfl⟩ := List.mem_map.1 hl
  obtain ⟨r, hr, hru⟩ := List.mem_map.1 hul
  exact ⟨q, hq, r, hr, hru⟩

/-- With pairwise-distinct logical names every group is a singleton, so the
analyzer reports no duplicates. -/
theorem analyze_eq_nil_of_nodup (refs : List Reference)
    (h : (refs.map (·.filename)).Nodup) : analyze_duplicates refs = [] := by
  have hlen : ∀ k, (refs.filter fun r => r.filename == k).length ≤ 1 := by
    intro k
    induction refs with
    | nil => simp
    | cons r t iht =>
      rw [List.map_cons, List.nodup_cons] at h
      rw [List.filter_cons]
      split
      · next hrk =>
        have hk : r.filename = k := by simpa using hrk
        have hnone : t.filter (fun r => r.filename == k) = [] := by
          rw [List.filter_eq_nil_iff]
          intro x hx hxk
          apply h.1
          rw [List.mem_map]
          exact ⟨x, hx, by rw [hk]; simpa using hxk⟩
        rw [hnone]
        simp
      · exact iht h.2
  rw [analyze_duplicates, List.filterMap_eq_nil_iff]
  intro p hp
  have hgrp := groupByFilename_mem refs p hp
  have h1 : (sortByLine p.2).length ≤ 1 := by
    rw [(sortByLine_perm p.2).length_eq, hgrp]
    exact hlen p.1
  unfold analyzeGroup
  cases hs : sortByLine p.2 with
  | nil => rfl
  | cons r0 rest =>
    cases rest with
    | nil => rfl
    | cons r1 rest' =>
      rw [hs] at h1
      simp at h1

/-! ## Lemmas about the remover -/

theorem remove_out (content : List Char) (dups : List (List Char × DupGroup)) :
    (remove_duplicate_references content dups).1 =
      joinLines ((splitLines content).filter fun l =>
        !lineRemoved (removeUuids dups) l) := rfl

theorem remove_count (content : List Char) (dups : List (List Char × DupGroup)) :
    (remove_duplicate_references content dups).2 =
      (splitLines content).countP fun l => lineRemoved (removeUuids dups) l := rfl

/-- Removing with an empty duplicate report leaves the document unchanged
and removes no line. -/
theorem remove_nil (content : List Char) :
    remove_duplicate_references content [] = (content, 0) := by
  have h1 : removeUuids [] = [] := rfl
  have h2 : ∀ l, lineRemoved (removeUuids []) l = false := fun l => rfl
  rw [remove_duplicate_references]
  refine Prod.ext ?_ ?_
  · show joinLines ((splitLines content).filter fun l =>
        !lineRemoved (removeUuids []) l) = content
    have : ((splitLines content).filter fun l => !lineRemoved (removeUuids []) l) =
        splitLines content := by
      apply List.filter_eq_self.2
      intro l _
      rw [h2 l]
      rfl
    rw [this, joinLines_splitLines]
  · show ((splitLines content).countP fun l => lineRemoved (removeUuids []) l) = 0
    rw [List.countP_eq_zero]
    intro l _
    rw [h2 l]
    simp

/-! ## The partition of the scanned references by filename -/

theorem flatten_map_filter_perm_aux (g : List Char → List Reference)
    (ks : List (List Char)) (x : List Char) (hnd : ks.Nodup) (hx : x ∈ ks) :
    (g x ++ ((ks.filter fun a => a != x).map g).flatten).Perm
      ((ks.map g).flatten) := by
  induction ks with
  | nil => cases hx
  | cons y ys ih =>
    rw [List.nodup_cons] at hnd
    rcases List.mem_cons.1 hx with rfl | hx'
    · have hfy : (x :: ys).filter (fun a => a != x) = ys.filter fun a => a != x := by
        rw [List.filter_cons]
        simp
      have hfys : ys.filter (fun a => a != x) = ys := by
        apply List.filter_eq_self.2
        intro a ha
        simp only [bne_iff_ne, ne_eq]
        intro he
        exact hnd.1 (he ▸ ha)
      rw [hfy, hfys, List.map_cons, List.flatten_cons]
    · have hyx : (y != x) = true := by
        simp only [bne_iff_ne, ne_eq]
        intro he
        exact hnd.1 (he ▸ hx')
      have hfy : (y :: ys).filter (fun a => a != x) =
          y :: ys.filter fun a => a != x := by
        rw [List.filter_cons, if_pos hyx]
      rw [hfy, List.map_cons, List.flatten_cons, List.map_cons, List.flatten_cons]
      have h1 : (g x ++ (g y ++ ((ys.filter fun a => a != x).map g).flatten)).Perm
          (g y ++ (g x ++ ((ys.filter fun a => a != x).map g).flatten)) := by
        rw [← List.append_assoc, ← List.append_assoc]
        exact List.perm_append_comm.append_right _
      exact h1.trans ((ih hnd.2 hx').append_left (g y))

/-- `firstKeys` commutes with removing one key. -/
theorem firstKeys_filter_aux (fuel : Nat) :
    ∀ (l : List (List Char)) (k : List Char), l.length ≤ fuel →
      firstKeys (l.filter fun x => x != k) =
        (firstKeys l).filter fun x => x != k := by
  induction fuel with
  | zero =>
    intro l k h
    have hl : l = [] := List.length_eq_zero.1 (by omega)
    subst hl
    simp [firstKeys_nil]
  | succ n ih =>
    intro l k h
    cases l with
    | nil => simp [firstKeys_nil]
    | cons k' ks =>
      have hlen : (ks.filter fun x => x != k').length ≤ n := by
        have := List.length_filter_le (fun x => x != k') ks
        simp only [List.length_cons] at h
        omega
      by_cases hk : k' = k
      · subst hk
        have h1 : (k' :: ks).filter (fun x => x != k') = ks.filter fun x => x != k' := by
          rw [List.filter_cons]
          simp
        rw [h1, firstKeys_cons]
        have h2 : (k' :: firstKeys (ks.filter fun x => x != k')).filter
            (fun x => x != k') = (firstKeys (ks.filter fun x => x != k')).filter
              fun x => x != k' := by
          rw [List.filter_cons]
          simp
        rw [h2]
        have h3 : (firstKeys (ks.filter fun x => x != k')).filter
            (fun x => x != k') = firstKeys (ks.filter fun x => x != k') := by
          apply List.filter_eq_self.2
          intro a ha
          rw [mem_firstKeys] at ha
          exact (List.mem_filter.1 ha).2
        rw [h3]
      · have hk'b : (k' != k) = true := by simpa using hk
        have h1 : (k' :: ks).filter (fun x => x != k) =
            k' :: ks.filter fun x => x != k := by
          rw [List.filter_cons, if_pos hk'b]
        rw [h1, firstKeys_cons, firstKeys_cons]
        have hcomm : (ks.filter fun x => x != k).filter (fun x => x != k') =
            (ks.filter fun x => x != k').filter fun x => x != k := by
          rw [List.filter_filter, List.filter_filter]
          apply List.filter_congr
          intro a _
          rw [Bool.and_comm]
        rw [hcomm, ih _ k hlen]
        have h2 : (k' :: firstKeys (ks.filter fun x => x != k')).filter
            (fun x => x != k) =
            k' :: (firstKeys (ks.filter fun x => x != k')).filter fun x => x != k := by
          rw [List.filter_cons, if_pos hk'b]
        rw [h2]

theorem firstKeys_filter (l : List (List Char)) (k : List Char) :
    firstKeys (l.filter fun x => x != k) =
      (firstKeys l).filter fun x => x != k :=
  firstKeys_filter_aux l.length l k (le_refl _)

/-- The filename groups partition the scanned references: concatenating the
per-key filters over the distinct keys permutes the original list. -/
theorem keys_filter_flatten_perm (t : List Reference) :
    (((firstKeys (t.map fun x => x.filename)).map fun k =>
        t.filter fun x => x.filename == k).flatten).Perm t := by
  induction t with
  | nil => simp [firstKeys_nil]
  | cons r t ih =>
    rw [List.map_cons, firstKeys_cons, List.map_cons, List.flatten_cons]
    have hhead : (r :: t).filter (fun x => x.filename == r.filename) =
        r :: t.filter fun x => x.filename == r.filename := by
      rw [List.filter_cons, if_pos (by simp)]
    rw [hhead]
    have hrw : (firstKeys ((t.map fun x => x.filename).filter
          fun x => x != r.filename)).map
        (fun k => (r :: t).filter fun x => x.filename == k) =
        (firstKeys ((t.map fun x => x.filename).filter
          fun x => x != r.filename)).map
          fun k => t.filter fun x => x.filename == k := by
      apply List.map_congr_left
      intro k hk
      rw [mem_firstKeys, List.mem_filter] at hk
      rw [List.filter_cons, if_neg]
      simp only [beq_iff_eq]
      intro he
      have h2 := hk.2
      rw [← he] at h2
      simp at h2
    rw [hrw]
    refine List.Perm.cons r ?_
    rw [firstKeys_filter]
    by_cases hmem : r.filename ∈ firstKeys (t.map fun x => x.filename)
    · have := flatten_map_filter_perm_aux
        (fun k => t.filter fun x => x.filename == k)
        (firstKeys (t.map fun x => x.filename)) r.filename
        (nodup_firstKeys _) hmem
      exact this.trans ih
    · have hfe : (firstKeys (t.map fun x => x.filename)).filter
          (fun x => x != r.filename) = firstKeys (t.map fun x => x.filename) := by
        apply List.filter_eq_self.2
        intro a ha
        simp only [bne_iff_ne, ne_eq]
        intro he
        exact hmem (he ▸ ha)
      have hnone : t.filter (fun x => x.filename == r.filename) = [] := by
        rw [List.filter_eq_nil_iff]
        intro x hx hxf
        apply hmem
        rw [mem_firstKeys, List.mem_map]
        exact ⟨x, hx, by simpa using hxf⟩
      rw [hfe, hnone]
      simpa using ih

/-- The filename groups of `groupByFilename` partition the scanned
references. -/
theorem groupBy_flatten_perm (refs : List Reference) :
    (((groupByFilename refs).map fun p => p.2).flatten).Perm refs := by
  rw [groupByFilename, List.map_map]
  have hc : ((fun p : List Char × List Reference => p.2) ∘ fun k =>
      (k, refs.filter fun r => r.filename == k)) =
      fun k => refs.filter fun x => x.filename == k := rfl
  rw [hc]
  exact keys_filter_flatten_perm refs

/-- Counts transfer along permutations (stated for the `BEq` instance in
use here). -/
theorem perm_count_eq (l₁ l₂ : List (List Char)) (h : l₁.Perm l₂)
    (a : List Char) : l₁.count a = l₂.count a :=
  h.countP_eq _

theorem count_le_one_of_nodup (l : List (List Char)) (h : l.Nodup)
    (u : List Char) : l.count u ≤ 1 := by
  induction l with
  | nil => simp
  | cons x xs ih =>
    rw [List.nodup_cons] at h
    rw [List.count_cons]
    by_cases hux : u = x
    · subst hux
      have hz : xs.count u = 0 := by
        rw [List.count_eq_zero]
        exact h.1
      simp [hz]
    · have hb : (x == u) = false := by
        rw [beq_eq_false_iff_ne]
        exact fun he => hux he.symm
      simp only [hb, if_false, Bool.false_eq_true]
      have := ih h.2
      omega

theorem nodup_of_count_le_one (l : List (List Char))
    (h : ∀ u, l.count u ≤ 1) : l.Nodup := by
  induction l with
  | nil => simp
  | cons x xs ih =>
    rw [List.nodup_cons]
    constructor
    · intro hmem
      have h1 : 1 ≤ xs.count x := List.one_le_count_iff.2 hmem
      have h2 := h x
      rw [List.count_cons] at h2
      simp at h2
      omega
    · refine ih fun u => ?_
      have h2 := h u
      rw [List.count_cons] at h2
      split at h2 <;> omega

/-- Each group contributes at most its own references to the removal set:
counting multiplicities, the removal identifiers are bounded by the
references'. -/
theorem count_removeUuids_le (gs : List (List Char × List Reference))
    (u : List Char) :
    (removeUuids (gs.filterMap analyzeGroup)).count u ≤
      (((gs.map fun p => p.2).flatten).map (·.uuid)).count u := by
  induction gs with
  | nil => simp [removeUuids]
  | cons p gs ih =>
    rw [List.filterMap_cons, List.map_cons, List.flatten_cons, List.map_append,
      List.count_append]
    cases he : analyzeGroup p with
    | none => exact le_trans ih (by omega)
    | some q =>
      have hqrem : (q.2.remove.map (·.uuid)).count u ≤
          (p.2.map (·.uuid)).count u := by
        unfold analyzeGroup at he
        cases hs : sortByLine p.2 with
        | nil => rw [hs] at he; simp at he
        | cons r0 rest =>
          cases rest with
          | nil => rw [hs] at he; simp at he
          | cons r1 rest' =>
            rw [hs] at he
            simp only [Option.some.injEq] at he
            subst he
            have hperm : ((r0 :: r1 :: rest').map (·.uuid)).Perm
                (p.2.map (·.uuid)) := by
              refine List.Perm.map _ ?_
              rw [← hs]
              exact sortByLine_perm p.2
            rw [← perm_count_eq _ _ hperm u]
            simp only [List.map_cons, List.count_cons]
            omega
      have hflat : removeUuids (q :: gs.filterMap analyzeGroup) =
          q.2.remove.map (·.uuid) ++ removeUuids (gs.filterMap analyzeGroup) := by
        rw [removeUuids, removeUuids, List.map_cons, List.flatten_cons]
      rw [hflat, List.count_append]
      omega

/-- With pairwise-distinct scanned identifiers, the identifiers of the
removal lists are pairwise distinct across and within all groups. -/
theorem removeUuids_nodup (refs : List Reference)
    (h : (refs.map (·.uuid)).Nodup) :
    (removeUuids (analyze_duplicates refs)).Nodup := by
  refine nodup_of_count_le_one _ fun u => ?_
  refine le_trans ?_ (count_le_one_of_nodup _ h u)
  rw [analyze_duplicates]
  refine le_trans (count_removeUuids_le (groupByFilename refs) u) ?_
  have hperm : ((((groupByFilename refs).map fun p => p.2).flatten).map
      (·.uuid)).Perm (refs.map (·.uuid)) :=
    (groupBy_flatten_perm refs).map _
  rw [perm_count_eq _ _ hperm u]

/-! ## Bridging facts for the derived notions -/

theorem runPipeline_out (content : List Char) :
    (runPipeline content).1 =
      joinLines ((splitLines content).filter fun l =>
        !lineRemoved (docRemoveSet content) l) := rfl

theorem runPipeline_count (content : List Char) :
    (runPipeline content).2 =
      (splitLines content).countP fun l =>
        lineRemoved (docRemoveSet content) l := rfl

theorem containsList_nil (u : List Char) (h : u ≠ []) :
    containsList [] u = false := by
  rw [containsList]
  cases u with
  | nil => exact absurd rfl h
  | cons a u' => simp [List.isPrefixOf]

theorem remove_ref_uuid_mem (content : List Char) (q : List Char × DupGroup)
    (hq : q ∈ docDups content) (r : Reference) (hr : r ∈ q.2.remove) :
    r.uuid ∈ docRemoveSet content := by
  rw [docRemoveSet, removeUuids, List.mem_flatten]
  exact ⟨q.2.remove.map (·.uuid), List.mem_map.2 ⟨q, hq, rfl⟩,
    List.mem_map.2 ⟨r, hr, rfl⟩⟩

/-- A reference of a `remove` list has its own identifier on its own line,
so its line is removed. -/
theorem removed_ref_not_survives (content : List Char)
    (q : List Char × DupGroup) (hq : q ∈ docDups content)
    (r : Reference) (hr : r ∈ q.2.remove) :
    refSurvives content r = false := by
  have hline : lineRemoved (docRemoveSet content)
      (lineAt content (r.line - 1)) = true := by
    rw [lineRemoved, List.any_eq_true]
    have hrrefs : r ∈ docRefs content :=
      (analyze_remove_mem (docRefs content) q hq r hr).1
    exact ⟨r.uuid, remove_ref_uuid_mem content q hq r hr,
      (parse_refs_spec content r hrrefs).2.2.2.2⟩
  rw [refSurvives, hline]
  rfl

/-- A surviving reference's line is one of the output's lines. -/
theorem survivor_line_mem_out (content : List Char) (r : Reference)
    (hr : r ∈ docRefs content) (hs : refSurvives content r = true) :
    lineAt content (r.line - 1) ∈ splitLines (runPipeline content).1 := by
  have hspec := parse_refs_spec content r hr
  have hidx : r.line - 1 < (splitLines content).length := by
    rw [length_splitLines]
    have h1 := hspec.2.2.1
    have h2 := hspec.2.2.2.1
    omega
  have hmem : lineAt content (r.line - 1) ∈ splitLines content := by
    rw [lineAt, List.getD_eq_getElem _ _ hidx]
    exact List.getElem_mem hidx
  have hkept : lineAt content (r.line - 1) ∈
      (splitLines content).filter fun l =>
        !lineRemoved (docRemoveSet content) l :=
    List.mem_filter.2 ⟨hmem, hs⟩
  have hne : ((splitLines content).filter fun l =>
      !lineRemoved (docRemoveSet content) l) ≠ [] := by
    intro h
    rw [h] at hkept
    cases hkept
  have hout : splitLines (runPipeline content).1 =
      (splitLines content).filter fun l =>
        !lineRemoved (docRemoveSet content) l := by
    rw [runPipeline_out]
    exact splitLines_joinLines _ hne fun l hl =>
      not_newline_mem_splitLines content l (List.mem_of_mem_filter hl)
  rw [hout]
  exact hkept

/-! ## The claims -/

/-- C10: the section index has no effect on removal — `remove_duplicate_references`
returns the same rewritten text and removed-line count as the same function
with the `find_file_sections` computation deleted; which lines are removed
depends only on the document's lines and the identifiers of the `remove`
lists. -/
theorem sections_no_effect (content : List Char)
    (dups : List (List Char × DupGroup)) :
    remove_duplicate_references content dups =
      remove_duplicate_references_noIndex content dups := rfl

/-- C3: identifier-removal completeness — after the pipeline, no line of the
rewritten text contains any identifier of the union of the groups' `remove`
lists. -/
theorem removal_completeness (content : List Char) :
    ∀ l ∈ splitLines (runPipeline content).1,
      ∀ u ∈ docRemoveSet content, containsList l u = false := by
  intro l hl u hu
  obtain ⟨q, hq, r, hr, rfl⟩ := removeUuids_mem (docDups content) u hu
  have hrrefs : r ∈ docRefs content :=
    (analyze_remove_mem (docRefs content) q hq r hr).1
  have hlen : r.uuid.length = 24 := (parse_refs_spec content r hrrefs).1
  have hne : r.uuid ≠ [] := by
    intro h
    rw [h] at hlen
    simp at hlen
  by_cases hk : ((splitLines content).filter fun x =>
      !lineRemoved (docRemoveSet content) x) = []
  · have h1 : (runPipeline content).1 = [] := by
      rw [runPipeline_out, hk]
      rfl
    rw [h1] at hl
    have hle : l = [] := by simpa [splitLines] using hl
    rw [hle]
    exact containsList_nil _ hne
  · have hsl : splitLines (runPipeline content).1 =
        (splitLines content).filter fun x =>
          !lineRemoved (docRemoveSet content) x := by
      rw [runPipeline_out]
      exact splitLines_joinLines _ hk fun x hx =>
        not_newline_mem_splitLines content x (List.mem_of_mem_filter hx)
    rw [hsl] at hl
    have hpred := (List.mem_filter.1 hl).2
    have hrem : lineRemoved (docRemoveSet content) l = false := by
      rwa [Bool.not_eq_eq_eq_not, Bool.not_true] at hpred
    rw [lineRemoved, List.any_eq_false] at hrem
    exact Bool.eq_false_iff.2 (hrem r.uuid hu)

/-- C3 witness: in the two-reference document the kept declaration line of
`F.swift` contains no removed identifier. -/
theorem removal_completeness_witness :
    (uuidA ++ " /* F.swift */".data) ∈ splitLines (runPipeline dupPairDoc).1 ∧
    uuidB ∈ docRemoveSet dupPairDoc ∧
    containsList (uuidA ++ " /* F.swift */".data) uuidB = false :=
  ⟨by decide, by decide,
    removal_completeness dupPairDoc _ (by decide) uuidB (by decide)⟩

/-- C7: no-duplicates terminal state — when every logical name occurs in
exactly one scanned reference, the duplicate report is empty, nothing is
removed and the rewritten text equals the input. -/
theorem no_duplicates_terminal (content : List Char)
    (h : ((parse_file_references content).map fun r => r.filename).Nodup) :
    analyze_duplicates (parse_file_references content) = [] ∧
    runPipeline content = (content, 0) := by
  have h1 := analyze_eq_nil_of_nodup _ h
  refine ⟨h1, ?_⟩
  rw [runPipeline, h1]
  exact remove_nil content

/-- C7 witness: a two-name document with no duplicates passes through the
pipeline unchanged. -/
theorem no_duplicates_terminal_witness :
    analyze_duplicates (parse_file_references distinctDoc) = [] ∧
    runPipeline distinctDoc = (distinctDoc, 0) :=
  no_duplicates_terminal distinctDoc (by decide)

/-- C2 counterexample: removing a line can join an identifier with a
comment on a later line into a fresh match, so a second pipeline pass on
`secondPassDoc`'s output finds a new duplicate group, removes another line
and changes the text — idempotence fails as stated. -/
theorem idempotence_counterexample :
    ¬ ((runPipeline (runPipeline secondPassDoc).1).2 = 0 ∧
       (runPipeline (runPipeline secondPassDoc).1).1 =
         (runPipeline secondPassDoc).1 ∧
       analyze_duplicates (parse_file_references
         (runPipeline secondPassDoc).1) = []) := by decide

/-- C2 amended: whenever re-scanning the first run's output yields no
duplicate group (which removal does not guarantee — see the
counterexample), the second run removes nothing and returns its input
unchanged. -/
theorem idempotence_amended (content : List Char)
    (h : analyze_duplicates (parse_file_references
      (runPipeline content).1) = []) :
    runPipeline (runPipeline content).1 = ((runPipeline content).1, 0) := by
  rw [runPipeline, h]
  exact remove_nil _

/-- C2 witness: for the two-reference document the second pass finds no
duplicates and is the identity. -/
theorem idempotence_amended_witness :
    runPipeline (runPipeline dupPairDoc).1 = ((runPipeline dupPairDoc).1, 0) :=
  idempotence_amended dupPairDoc (by decide)

/-- C5 counterexample: when the scanner extracts the same identifier three
times for one logical name, the `remove` list repeats that identifier — the
removal identifiers are not pairwise distinct as claimed. -/
theorem remove_distinct_counterexample :
    ¬ (removeUuids (analyze_duplicates
      (parse_file_references tripleDoc))).Nodup := by decide

/-- C5 amended: provided the scanned references carry pairwise-distinct
identifiers (which the scanner does not guarantee — see the
counterexample), the identifiers of the `remove` lists are pairwise
distinct across all groups and within each group. -/
theorem remove_distinct_amended (content : List Char)
    (h : ((parse_file_references content).map fun r => r.uuid).Nodup) :
    (removeUuids (analyze_duplicates (parse_file_references content))).Nodup :=
  removeUuids_nodup _ h

/-- C5 witness: the two-reference document has distinct identifiers, and so
has its removal set. -/
theorem remove_distinct_amended_witness :
    (removeUuids (analyze_duplicates
      (parse_file_references dupPairDoc))).Nodup :=
  remove_distinct_amended dupPairDoc (by decide)

/-- C8 counterexample: two references to one logical name on the same line
give the keep and the remove entry equal line numbers, so the strict
inequality of the claim fails. -/
theorem keep_before_remove_counterexample :
    ¬ (∀ q ∈ analyze_duplicates (parse_file_references tieDoc),
        ∀ r ∈ q.2.remove, q.2.keep.line < r.line) := by decide

/-- C8 amended: the keep of every duplicate group has a line number less
than or equal to that of every entry of the group's `remove` list (equality
can occur — see the counterexample). -/
theorem keep_before_remove_amended (content : List Char)
    (q : List Char × DupGroup)
    (hq : q ∈ analyze_duplicates (parse_file_references content))
    (r : Reference) (hr : r ∈ q.2.remove) :
    q.2.keep.line ≤ r.line :=
  analyze_keep_le _ _ hq _ hr

/-- C8 witness: in the two-reference document the keep (line 1) precedes
the removed reference (line 2). -/
theorem keep_before_remove_amended_witness :
    ("F.swift".data, DupGroup.mk refAw [refBw]) ∈
      analyze_duplicates (parse_file_references dupPairDoc) ∧
    refBw ∈ (DupGroup.mk refAw [refBw]).remove ∧
    (DupGroup.mk refAw [refBw]).keep.line ≤ refBw.line :=
  ⟨by decide, by decide,
    keep_before_remove_amended dupPairDoc ("F.swift".data, DupGroup.mk refAw [refBw])
      (by decide) refBw (by decide)⟩

/-- C6: structural preservation — when the rewritten text passes
`validate_project_file`, the set of required section markers present in it
equals the set present in the input, and its brace counts agree. -/
theorem structural_preservation (content : List Char)
    (hval : validate_project_file (runPipeline content).1 = true) :
    (requiredSections.filter fun m => containsList (runPipeline content).1 m) =
      (requiredSections.filter fun m => containsList content m) ∧
    (runPipeline content).1.count '\x7b' = (runPipeline content).1.count '\x7d' := by
  rw [validate_project_file, Bool.and_eq_true] at hval
  obtain ⟨hall, hbrace⟩ := hval
  refine ⟨?_, by simpa using hbrace⟩
  rw [List.all_eq_true] at hall
  have hmarkers : ∀ m ∈ requiredSections, m ≠ [] ∧ '\n' ∉ m := by decide
  have hin : ∀ m ∈ requiredSections, containsList content m = true := by
    intro m hm
    obtain ⟨hne, hnl⟩ := hmarkers m hm
    obtain ⟨l, hl, hcl⟩ := containsList_splitLines _ m hne hnl (hall m hm)
    by_cases hk : ((splitLines content).filter fun x =>
        !lineRemoved (docRemoveSet content) x) = []
    · exfalso
      have h1 : (runPipeline content).1 = [] := by
        rw [runPipeline_out, hk]
        rfl
      have h2 := hall m hm
      rw [h1, containsList_nil m hne] at h2
      simp at h2
    · have hsl : splitLines (runPipeline content).1 =
          (splitLines content).filter fun x =>
            !lineRemoved (docRemoveSet content) x := by
        rw [runPipeline_out]
        exact splitLines_joinLines _ hk fun x hx =>
          not_newline_mem_splitLines content x (List.mem_of_mem_filter hx)
      rw [hsl] at hl
      have hl2 : l ∈ splitLines content := List.mem_of_mem_filter hl
      obtain ⟨s, t, hst⟩ := mem_splitLines_embed content l hl2
      exact containsList_mono l content m ⟨s, t, hst⟩ hcl
  rw [List.filter_eq_self.2 fun m hm => hall m hm,
    List.filter_eq_self.2 fun m hm => hin m hm]

/-- C6 witness: a document carrying all eight markers passes validation and
both marker sets are full. -/
theorem structural_preservation_witness :
    (requiredSections.filter fun m => containsList (runPipeline markersDoc).1 m) =
      (requiredSections.filter fun m => containsList markersDoc m) ∧
    (runPipeline markersDoc).1.count '\x7b' = (runPipeline markersDoc).1.count '\x7d' :=
  structural_preservation markersDoc (by decide)

/-- C1 counterexample: when the keep's own line also carries a removed
identifier (two references on one line), that line is removed and the
output retains the logical name's declaration zero times, not once. -/
theorem keepOne_counterexample :
    ((parse_file_references sameLineDoc).filter
      fun r => r.filename == "F.swift".data).length = 2 ∧
    (runPipeline sameLineDoc).1 = [] ∧
    ¬ (((parse_file_references (runPipeline sameLineDoc).1).filter
      fun r => r.filename == "F.swift".data).length = 1) := by decide

/-- C1 amended: keep-one invariant under a separation hypothesis — if no
designated keep's line and no unique reference's line contains a removed
identifier (which the code does not guarantee — see the counterexample),
then for every logical name with at least one scanned reference exactly one
of its references keeps its line, namely the one with the smallest line
number, and that line is a line of the rewritten text. -/
theorem keepOne_amended (content f : List Char)
    (hex : 0 < (nameGroup content f).length)
    (hkeep : ∀ q ∈ docDups content, refSurvives content q.2.keep = true)
    (huniq : ∀ r ∈ docRefs content,
      nameGroup content r.filename = [r] → refSurvives content r = true) :
    (nameGroup content f).filter (refSurvives content) = [keepOf content f] ∧
    (∀ r ∈ nameGroup content f, (keepOf content f).line ≤ r.line) ∧
    lineAt content ((keepOf content f).line - 1) ∈
      splitLines (runPipeline content).1 := by
  cases hs : sortByLine (nameGroup content f) with
  | nil =>
    exfalso
    have hleq := (sortByLine_perm (nameGroup content f)).length_eq
    rw [hs] at hleq
    simp only [List.length_nil] at hleq
    omega
  | cons r0 rest =>
    have hkeepOf : keepOf content f = r0 := by
      rw [keepOf, hs]
      rfl
    have hr0G : r0 ∈ nameGroup content f := by
      have hm : r0 ∈ sortByLine (nameGroup content f) := by
        rw [hs]
        exact List.mem_cons_self _ _
      exact (sortByLine_perm _).mem_iff.1 hm
    have hr0refs : r0 ∈ docRefs content := List.mem_of_mem_filter hr0G
    have hr0f : r0.filename = f := by
      have := (List.mem_filter.1 hr0G).2
      simpa using this
    cases rest with
    | nil =>
      have hG : nameGroup content f = [r0] := by
        have hp := (sortByLine_perm (nameGroup content f)).symm
        rw [hs] at hp
        exact List.perm_singleton.1 hp
      have hsurv : refSurvives content r0 = true := by
        apply huniq r0 hr0refs
        rw [hr0f]
        exact hG
      refine ⟨?_, ?_, ?_⟩
      · rw [hG, hkeepOf]
        simp [hsurv]
      · intro r hr
        rw [hG] at hr
        rcases List.mem_cons.1 hr with rfl | h
        · rw [hkeepOf]
        · cases h
      · rw [hkeepOf]
        exact survivor_line_mem_out content r0 hr0refs hsurv
    | cons r1 rest' =>
      have hfmem : f ∈ firstKeys ((docRefs content).map fun r => r.filename) := by
        rw [mem_firstKeys, List.mem_map]
        exact ⟨r0, hr0refs, hr0f⟩
      have hgrp : (f, nameGroup content f) ∈ groupByFilename (docRefs content) := by
        rw [groupByFilename, List.mem_map]
        exact ⟨f, hfmem, rfl⟩
      have hq : (f, DupGroup.mk r0 (r1 :: rest')) ∈ docDups content := by
        rw [docDups, analyze_duplicates, List.mem_filterMap]
        refine ⟨(f, nameGroup content f), hgrp, ?_⟩
        show (match sortByLine (nameGroup content f) with
          | r0 :: r1 :: rest => some (f, DupGroup.mk r0 (r1 :: rest))
          | _ => none) = some (f, DupGroup.mk r0 (r1 :: rest'))
        rw [hs]
      have hsurv0 : refSurvives content r0 = true := hkeep _ hq
      have hdead : ∀ r ∈ r1 :: rest', refSurvives content r = false := fun r hr =>
        removed_ref_not_survives content _ hq r hr
      have hfilter : (nameGroup content f).filter (refSurvives content) = [r0] := by
        have hperm := (sortByLine_perm (nameGroup content f)).filter
          (refSurvives content)
        rw [hs] at hperm
        have hnil : (r1 :: rest').filter (refSurvives content) = [] :=
          List.filter_eq_nil_iff.2 fun r hr => by simp [hdead r hr]
        rw [List.filter_cons, if_pos hsurv0, hnil] at hperm
        exact List.perm_singleton.1 hperm.symm
      refine ⟨by rw [hfilter, hkeepOf], ?_, ?_⟩
      · intro r hr
        rw [hkeepOf]
        have hsorted := sortByLine_sorted (nameGroup content f)
        rw [hs, List.pairwise_cons] at hsorted
        have hm : r ∈ sortByLine (nameGroup content f) :=
          (sortByLine_perm _).mem_iff.2 hr
        rw [hs] at hm
        rcases List.mem_cons.1 hm with rfl | hmem
        · exact le_refl _
        · exact hsorted.1 r hmem
      · rw [hkeepOf]
        exact survivor_line_mem_out content r0 hr0refs hsurv0

/-- C1 witness: in the two-reference document, exactly the first `F.swift`
reference keeps its line and that line is in the output. -/
theorem keepOne_amended_witness :
    (nameGroup dupPairDoc ("F.swift".data)).filter (refSurvives dupPairDoc) =
      [keepOf dupPairDoc ("F.swift".data)] ∧
    (∀ r ∈ nameGroup dupPairDoc ("F.swift".data),
      (keepOf dupPairDoc ("F.swift".data)).line ≤ r.line) ∧
    lineAt dupPairDoc ((keepOf dupPairDoc ("F.swift".data)).line - 1) ∈
      splitLines (runPipeline dupPairDoc).1 :=
  keepOne_amended dupPairDoc ("F.swift".data) (by decide) (by decide) (by decide)

/-- C4: the worked scenario — `Foo.swift` declared at lines 10, 45 and 120
(identifiers `A…`, `B…`, `C…`) and mentioned once more at lines 200, 210
and 220; the analyzer keeps `A…` and marks `B…` and `C…`, and the remover
deletes exactly lines 45, 120, 210 and 220, reporting a count of 4. -/
theorem worked_scenario :
    (analyze_duplicates (parse_file_references scenarioDoc)).map (fun q =>
      (q.1, q.2.keep.uuid, q.2.keep.line,
        q.2.remove.map fun r => (r.uuid, r.line))) =
      [("Foo.swift".data, uuidA, 10, [(uuidB, 45), (uuidC, 120)])] ∧
    remove_duplicate_references scenarioDoc
      (analyze_duplicates (parse_file_references scenarioDoc)) =
      (joinLines scenarioExpected, 4) := by decide

/-- C9: on a document whose `PBXGroup` end marker is missing the pipeline
still completes (removing the one duplicate line), the section indexer
silently attributes all later lines to the open section (no warning exists
anywhere in the code), and validation of the output fails because of the
absent marker pair. -/
theorem missing_end_marker_behavior :
    remove_duplicate_references openSectionDoc
      (analyze_duplicates (parse_file_references openSectionDoc)) =
      (joinLines openSectionOutLines, 1) ∧
    validate_project_file (joinLines openSectionOutLines) = false ∧
    find_file_sections (splitLines openSectionDoc) =
      [("PBXBuildFile", [0]), ("PBXFileReference", [2]),
       ("PBXGroup", [4, 5, 6, 7, 8]), ("PBXSourcesBuildPhase", []),
       ("PBXResourcesBuildPhase", [])] := by decide

end Cleanup
